import Mathlib

/-!
Verification development for the aliyun message client (package `message`,
file `message/client.go`).  The Go code is shallowly embedded: strings are
Lean strings, byte sequences are `List Nat` with every byte below 256, and
effectful inputs (current time, random UUID, HTTP transport, JSON decoding)
are passed in as explicit arguments or `Except` values.
-/

/-! ## UTF-8 encoding of strings (Go strings are byte sequences) -/

/-! ## UTF-8 encoding of strings (Go strings are byte sequences) -/

/-- Standard UTF-8 encoding of a single unicode scalar value. -/
def utf8EncodeChar (c : Char) : List Nat :=
  if c.toNat < 128 then [c.toNat]
  else if c.toNat < 2048 then [192 + c.toNat / 64, 128 + c.toNat % 64]
  else if c.toNat < 65536 then
    [224 + c.toNat / 4096, 128 + (c.toNat / 64) % 64, 128 + c.toNat % 64]
  else
    [240 + c.toNat / 262144, 128 + (c.toNat / 4096) % 64, 128 + (c.toNat / 64) % 64,
      128 + c.toNat % 64]

/-- The UTF-8 bytes of a string, as Go sees string contents. -/
def utf8Bytes (s : String) : List Nat :=
  s.data.flatMap utf8EncodeChar

/-! ## Go `net/url.QueryEscape` -/

/-- Bytes that Go `url.QueryEscape` leaves unescaped in a query component:
alphanumerics and `-`, `_`, `.`, `~` (per `shouldEscape`). -/
def isGoUnreserved (b : Nat) : Bool :=
  (65 ≤ b && b ≤ 90) || (97 ≤ b && b ≤ 122) || (48 ≤ b && b ≤ 57) ||
    b == 45 || b == 95 || b == 46 || b == 126

/-- The uppercase hex digit table `"0123456789ABCDEF"` used by Go URL escaping. -/
def hexDigit (n : Nat) : Char :=
  match n with
  | 0 => '0' | 1 => '1' | 2 => '2' | 3 => '3' | 4 => '4'
  | 5 => '5' | 6 => '6' | 7 => '7' | 8 => '8' | 9 => '9'
  | 10 => 'A' | 11 => 'B' | 12 => 'C' | 13 => 'D' | 14 => 'E' | 15 => 'F'
  | _ => '0'

/-- How `url.QueryEscape` renders one byte: unreserved bytes stay, space
becomes `+`, everything else becomes `%XX` with uppercase hex. -/
def qeByte (b : Nat) : List Char :=
  if isGoUnreserved b then [Char.ofNat b]
  else if b == 32 then ['+']
  else ['%', hexDigit (b / 16), hexDigit (b % 16)]

def queryEscapeChars (bs : List Nat) : List Char :=
  bs.flatMap qeByte

/-- Go `url.QueryEscape`: byte-wise escaping of the UTF-8 contents. -/
def queryEscape (s : String) : String :=
  ⟨queryEscapeChars (utf8Bytes s)⟩

/-! ## Go `strings.Replace(s, old, rep, -1)` for non-empty `old` -/

/-- Left-to-right non-overlapping global replacement, as
`strings.Replace(s, old, rep, -1)` does for a non-empty pattern: when the
pattern matches at the current position, emit the replacement and skip the
remaining `old.length - 1` characters of the matched occurrence (the
`skip` counter), otherwise keep the character.  The patterns used by the
client are ASCII and are applied to ASCII strings, so the char-level scan
coincides with the Go byte-level scan. -/
def replaceScan (old rep : List Char) : Nat → List Char → List Char
  | _, [] => []
  | s + 1, _ :: rest => replaceScan old rep s rest
  | 0, c :: rest =>
    if old.isPrefixOf (c :: rest) then
      rep ++ replaceScan old rep (old.length - 1) rest
    else
      c :: replaceScan old rep 0 rest

def replaceAll (old rep l : List Char) : List Char :=
  replaceScan old rep 0 l

def stringReplaceAll (s old rep : String) : String :=
  ⟨replaceAll old.data rep.data s.data⟩

/-! ## `SpecialURLEncode` (client.go lines 62-68) -/

/-- Direct translation of `SpecialURLEncode`: `url.QueryEscape`, then the
three global substitutions in source order. -/
def SpecialURLEncode (str : String) : String :=
  let encodedStr := queryEscape str
  let encodedStr := stringReplaceAll encodedStr "+" "%20"
  let encodedStr := stringReplaceAll encodedStr "*" "%2A"
  let encodedStr := stringReplaceAll encodedStr "%7E" "~"
  encodedStr

/-! ## SHA-1, HMAC-SHA1 and standard base64 -/

/-- Truncation to a 32-bit word. -/
def w32 (n : Nat) : Nat := n % 4294967296

/-- Rotate a 32-bit word left by `k`. -/
def rotl32 (k n : Nat) : Nat := w32 ((n <<< k) ||| (n >>> (32 - k)))

/-- SHA-1 padding: append `0x80`, zeros, and the 64-bit big-endian bit
length so the total is a multiple of 64 bytes. -/
def sha1Pad (msg : List Nat) : List Nat :=
  let len := msg.length
  let bitLen := 8 * len
  let zeros := (119 - len % 64) % 64
  msg ++ [128] ++ List.replicate zeros 0 ++
    [bitLen / 72057594037927936 % 256, bitLen / 281474976710656 % 256,
     bitLen / 1099511627776 % 256, bitLen / 4294967296 % 256,
     bitLen / 16777216 % 256, bitLen / 65536 % 256,
     bitLen / 256 % 256, bitLen % 256]

/-- Big-endian 32-bit words from bytes. -/
def bytesToWords : List Nat → List Nat
  | b0 :: b1 :: b2 :: b3 :: rest => (((b0 * 256 + b1) * 256 + b2) * 256 + b3) :: bytesToWords rest
  | _ => []

/-- Extend the 16 message words to the 80-entry SHA-1 schedule. -/
def sha1Schedule (ws : List Nat) : Array Nat :=
  (List.range 64).foldl
    (fun a j =>
      let i := j + 16
      let x := a.getD (i - 3) 0 ^^^ a.getD (i - 8) 0 ^^^ a.getD (i - 14) 0 ^^^ a.getD (i - 16) 0
      a.push (rotl32 1 x))
    ws.toArray

/-- The round function of SHA-1. -/
def sha1F (t b c d : Nat) : Nat :=
  if t < 20 then (b &&& c) ||| ((b ^^^ 4294967295) &&& d)
  else if t < 40 then b ^^^ c ^^^ d
  else if t < 60 then (b &&& c) ||| (b &&& d) ||| (c &&& d)
  else b ^^^ c ^^^ d

/-- The round constants of SHA-1. -/
def sha1K (t : Nat) : Nat :=
  if t < 20 then 1518500249
  else if t < 40 then 1859775393
  else if t < 60 then 2400959708
  else 3395469782

/-- One 64-byte block of the SHA-1 compression function. -/
def sha1Block (h : Nat × Nat × Nat × Nat × Nat) (block : List Nat) : Nat × Nat × Nat × Nat × Nat :=
  let w := sha1Schedule (bytesToWords block)
  let s := (List.range 80).foldl
    (fun st t =>
      let (a, b, c, d, e) := st
      let tmp := w32 (rotl32 5 a + sha1F t b c d + e + sha1K t + w.getD t 0)
      (tmp, a, rotl32 30 b, c, d))
    h
  let (a, b, c, d, e) := s
  let (h0, h1, h2, h3, h4) := h
  (w32 (h0 + a), w32 (h1 + b), w32 (h2 + c), w32 (h3 + d), w32 (h4 + e))

/-- Split a padded message into 64-byte blocks. -/
def chunks64 (msg : List Nat) : List (List Nat) :=
  match msg with
  | [] => []
  | c :: rest => (c :: rest).take 64 :: chunks64 ((c :: rest).drop 64)
termination_by msg.length
decreasing_by
  simp only [List.length_drop, List.length_cons]; omega

/-- Big-endian bytes of a 32-bit word. -/
def wordBytes (w : Nat) : List Nat :=
  [w / 16777216 % 256, w / 65536 % 256, w / 256 % 256, w % 256]

/-- SHA-1 digest (20 bytes) of a byte sequence. -/
def sha1 (msg : List Nat) : List Nat :=
  let r := (chunks64 (sha1Pad msg)).foldl sha1Block
    (1732584193, 4023233417, 2562383102, 271733878, 3285377520)
  wordBytes r.1 ++ wordBytes r.2.1 ++ wordBytes r.2.2.1 ++ wordBytes r.2.2.2.1 ++ wordBytes r.2.2.2.2

/-- HMAC-SHA1 (`crypto/hmac` with `sha1.New`): 64-byte block size. -/
def hmacSha1 (key msg : List Nat) : List Nat :=
  let k0 := if 64 < key.length then sha1 key else key
  let k := k0 ++ List.replicate (64 - k0.length) 0
  sha1 ((k.map (· ^^^ 92)) ++ sha1 ((k.map (· ^^^ 54)) ++ msg))

def base64Table : List Char :=
  "ABCDEFGHIJKLMNOPQRSTUVWXYZabcdefghijklmnopqrstuvwxyz0123456789+/".data

def b64Digit (n : Nat) : Char := base64Table.getD n 'A'

/-- Standard base64 encoding with `=` padding. -/
def base64Encode : List Nat → List Char
  | [] => []
  | [b0] => [b64Digit (b0 / 4), b64Digit (b0 % 4 * 16), '=', '=']
  | [b0, b1] => [b64Digit (b0 / 4), b64Digit (b0 % 4 * 16 + b1 / 16), b64Digit (b1 % 16 * 4), '=']
  | b0 :: b1 :: b2 :: rest =>
    b64Digit (b0 / 4) :: b64Digit (b0 % 4 * 16 + b1 / 16) ::
      b64Digit (b1 % 16 * 4 + b2 / 64) :: b64Digit (b2 % 64) :: base64Encode rest

/-! ## The client and `SignedString` (client.go lines 20-27, 86-96) -/

/-- The client: access key ID and secret, held for the client lifetime.
The embedded `http.Client` transport is external and not modelled. -/
structure Client where
  accessKeyID : String
  accessKeySecret : String

/-- Direct translation of `Client.SignedString`: build the string-to-sign
from the method, `url.QueryEscape("/")` and the specially encoded sorted
query string, HMAC-SHA1 it under the secret with `"&"` appended,
base64-encode, and specially encode the result. -/
def Client.SignedString (c : Client) (httpMethod sortedQueryStr : String) : String :=
  let str := httpMethod ++ "&" ++ queryEscape "/" ++ "&" ++ SpecialURLEncode sortedQueryStr
  let sign := String.mk (base64Encode (hmacSha1 (utf8Bytes (c.accessKeySecret ++ "&")) (utf8Bytes str)))
  SpecialURLEncode sign

/-! ## Reference definitions written from the words of the spec -/

/-- Reference definition from the spec (section 4.2 step 2): standard
form-encoding, then replace every literal `+` with `%20`, every literal `*`
with `%2A`, and every literal `%7E` with `~`, in this order. -/
def specialEncodeSpec (s : String) : String :=
  stringReplaceAll (stringReplaceAll (stringReplaceAll (queryEscape s) "+" "%20") "*" "%2A") "%7E" "~"

/-- Reference definition from the spec (section 4.3): string-to-sign is
`METHOD & %2F & special-encode(sortedQueryString)`, HMAC-SHA1 keyed by the
secret with a literal `&` appended, base64, then special encoding. -/
def signedStringSpec (httpMethod sortedQueryStr secret : String) : String :=
  specialEncodeSpec
    (String.mk (base64Encode (hmacSha1 (utf8Bytes (secret ++ "&"))
      (utf8Bytes (httpMethod ++ "&" ++ "%2F" ++ "&" ++ specialEncodeSpec sortedQueryStr)))))

/-! ## Byte-wise string order (Go `sort.Strings`) -/

/-- Lexicographic order on byte sequences, the order Go uses to compare
strings in `sort.Strings`. -/
def bytesLe : List Nat → List Nat → Bool
  | [], _ => true
  | _ :: _, [] => false
  | a :: as, b :: bs => if a < b then true else if b < a then false else bytesLe as bs

/-! ## `url.Values` and `Encode` (sorted canonical query string) -/

/-- The parameter set.  `url.Values` is a map from key to values; the
client only ever uses `Set`, which stores a single value per key, so the
map is modelled as an association list with one value per key.  Go maps
are unordered; the list order carries no meaning because `Encode` sorts. -/
abbrev Values := List (String × String)

/-- `v.Set(key, value)`: replace whatever was stored for `key` by the
single value `value`. -/
def Values.set (v : Values) (key value : String) : Values :=
  v.filter (fun p => p.1 != key) ++ [(key, value)]

/-- Key order used by `Encode`: Go `sort.Strings` compares strings
byte-wise. -/
def keyLe (p q : String × String) : Prop :=
  bytesLe (utf8Bytes p.1) (utf8Bytes q.1) = true

instance : DecidableRel keyLe := fun p q => by
  unfold keyLe; infer_instance

/-- The pairs sorted by key, as `Encode` produces them after
`sort.Strings(keys)`. -/
def sortedPairs (v : Values) : Values :=
  List.insertionSort keyLe v

/-- Joining with `&`, as the `Encode` loop writes a `&` before every pair
except the first. -/
def joinAmp : List String → String
  | [] => ""
  | [p] => p
  | p :: q :: rest => p ++ "&" ++ joinAmp (q :: rest)

/-- `v.Encode()`: sort pairs by key byte-wise, render each pair as
`QueryEscape(k)=QueryEscape(val)`, join with `&`. -/
def Values.encode (v : Values) : String :=
  joinAmp ((sortedPairs v).map (fun p => queryEscape p.1 ++ "=" ++ queryEscape p.2))

/-! ## Structure of `SpecialURLEncode` output -/

/-- Hex value of an uppercase hex digit character. -/
def hexVal (c : Char) : Nat :=
  if c.toNat ≤ 57 then c.toNat - 48 else c.toNat - 55

/-- Uppercase hex digit characters `0-9A-F`. -/
def isHexUpper (c : Char) : Bool :=
  (48 ≤ c.toNat && c.toNat ≤ 57) || (65 ≤ c.toNat && c.toNat ≤ 70)

/-- Per-byte rendering of the conformant percent-encoding the client
produces: unreserved bytes stay, every other byte (space included)
becomes `%XX` with uppercase hex. -/
def peByte (b : Nat) : List Char :=
  if isGoUnreserved b then [Char.ofNat b]
  else ['%', hexDigit (b / 16), hexDigit (b % 16)]

/-- Well-formed conformant percent-encoded text: a sequence of unreserved
characters and `%XY` escapes of non-unreserved bytes. -/
inductive EscWF : List Char → Prop
  | nil : EscWF []
  | plain (c : Char) (h : isGoUnreserved c.toNat = true) (l : List Char) :
      EscWF l → EscWF (c :: l)
  | esc (x y : Char) (hx : isHexUpper x = true) (hy : isHexUpper y = true)
      (hb : isGoUnreserved (16 * hexVal x + hexVal y) = false) (l : List Char) :
      EscWF l → EscWF ('%' :: x :: y :: l)

/-- The substitution phase of the special encoding on its own (spec
section 4.2 step 2): the three global replacements without the preceding
percent-encoding step. -/
def specialSubstitutions (s : String) : String :=
  stringReplaceAll (stringReplaceAll (stringReplaceAll s "+" "%20") "*" "%2A") "%7E" "~"

/-! ## Responses and business outcome (client.go lines 29-48, 168-177, 251-260) -/

/-- A Go error value, modelled by its message. -/
abbrev GoError := String

/-- Common response fields for the aliyun message service APIs. -/
structure Response where
  RequestID : String
  Code : String
  Message : String

/-- Response of sending SMS. -/
structure SMSResponse extends Response where
  BizID : String

/-- Response of making a single call by TTS. -/
structure SingleCallByTTSResponse extends Response where
  CallID : String

/-- ASCII uppercase on one character.  Go `strings.ToUpper` is applied to
the provider status codes, which are ASCII. -/
def asciiUpper (c : Char) : Char :=
  if 97 ≤ c.toNat ∧ c.toNat ≤ 122 then Char.ofNat (c.toNat - 32) else c

/-- `strings.ToUpper` on ASCII text. -/
def strToUpper (s : String) : String :=
  ⟨s.data.map asciiUpper⟩

/-- ASCII lowercase on one character, used by the reference
case-insensitive comparison. -/
def asciiLower (c : Char) : Char :=
  if 65 ≤ c.toNat ∧ c.toNat ≤ 90 then Char.ofNat (c.toNat + 32) else c

/-- Reference definition from the spec: case-insensitive string equality
(equality of the case-folded texts). -/
def eqIgnoreCase (a b : String) : Bool :=
  a.data.map asciiLower == b.data.map asciiLower

/-- Tail of `SendSMS` after a successful decode (lines 174-177): the
returned triple of success flag, response pointer and error. -/
def smsOutcome (response : SMSResponse) : Bool × Option SMSResponse × Option GoError :=
  if strToUpper response.Code ≠ "OK" then (false, some response, none)
  else (true, some response, none)

/-- Tail of `MakeSingleCallByTTS` after a successful decode (lines
257-260). -/
def ttsOutcome (response : SingleCallByTTSResponse) :
    Bool × Option SingleCallByTTSResponse × Option GoError :=
  if strToUpper response.Code ≠ "OK" then (false, some response, none)
  else (true, some response, none)

/-- `SendSMS` from the decode step on (lines 168-177): on a decode error
it returns `(false, nil, err)`, otherwise the business outcome.  The
`json.Unmarshal` call itself is standard library code summarized by the
`Except` input. -/
def smsHandleDecode (r : Except GoError SMSResponse) :
    Bool × Option SMSResponse × Option GoError :=
  match r with
  | Except.error e => (false, none, some e)
  | Except.ok response => smsOutcome response

/-- `MakeSingleCallByTTS` from the decode step on (lines 251-260). -/
def ttsHandleDecode (r : Except GoError SingleCallByTTSResponse) :
    Bool × Option SingleCallByTTSResponse × Option GoError :=
  match r with
  | Except.error e => (false, none, some e)
  | Except.ok response => ttsOutcome response

/-! ## Parameter assembly and request construction -/

/-- An optional parameter: the client applies `param.f(v)` to mutate the
in-flight parameter set. -/
structure Param where
  f : Values → Values

/-- `SetDefaultCommonParams` (lines 71-82).  `GenTimestamp(time.Now())`
is an external helper summarized by the timestamp string `ts` it
produces; `uuid.New()` is summarized by the pair `uuidRes` of the string
and the error it returns.  The error component of `uuidRes` is discarded,
mirroring `UUID, _ := uuid.New()`, and the function offers no error
result. -/
def Client.SetDefaultCommonParams (c : Client) (ts : String)
    (uuidRes : String × Option GoError) (v : Values) : Values :=
  (((((v.set "AccessKeyId" c.accessKeyID).set
    "Timestamp" ts).set
    "Format" "JSON").set
    "SignatureMethod" "HMAC-SHA1").set
    "SignatureVersion" "1.0").set
    "SignatureNonce" uuidRes.1

/-- Modelled from the spec: `GenPhoneNumbersStr` is not under src; the
spec (section 9) describes it as the phone-number-list joining helper.
No claim depends on its exact output. -/
def GenPhoneNumbersStr (phoneNumbers : List String) : String :=
  String.intercalate "," phoneNumbers

/-- The parameter set `SendSMS` builds (lines 115-133): defaults, SMS
business parameters, then the caller overrides, applied last. -/
def smsValues (c : Client) (ts : String) (uuidRes : String × Option GoError)
    (phoneNumbers : List String) (signName templateCode templateParam : String)
    (params : List Param) : Values :=
  let v : Values := []
  let v := c.SetDefaultCommonParams ts uuidRes v
  let v := ((v.set "Action" "SendSms").set "Version" "2017-05-25").set "RegionId" "cn-hangzhou"
  let v := (((v.set "PhoneNumbers" (GenPhoneNumbersStr phoneNumbers)).set
    "SignName" signName).set "TemplateCode" templateCode).set "TemplateParam" templateParam
  params.foldl (fun v p => p.f v) v

/-- The parameter set `MakeSingleCallByTTS` builds (lines 198-216). -/
def ttsValues (c : Client) (ts : String) (uuidRes : String × Option GoError)
    (calledShowNumber calledNumber ttsCode ttsParam : String)
    (params : List Param) : Values :=
  let v : Values := []
  let v := c.SetDefaultCommonParams ts uuidRes v
  let v := ((v.set "Action" "SingleCallByTts").set "Version" "2017-05-25").set "RegionId" "cn-hangzhou"
  let v := (((v.set "CalledShowNumber" calledShowNumber).set
    "CalledNumber" calledNumber).set "TtsCode" ttsCode).set "TtsParam" ttsParam
  params.foldl (fun v p => p.f v) v

/-- The fields of the `url.URL` the client constructs. -/
structure URLModel where
  scheme : String
  host : String
  path : String
  rawQuery : String

/-- Rendering of `url.URL.String()` for the URL shapes the client builds
(scheme, host, path and raw query only; no user info, opaque part or
fragment). -/
def URLModel.render (u : URLModel) : String :=
  u.scheme ++ "://" ++ u.host ++ u.path ++ (if u.rawQuery = "" then "" else "?" ++ u.rawQuery)

/-- The request URL `SendSMS` builds (lines 135-152): sorted query
string, signature, final raw query `Signature=<sig>&<sorted>`, fixed
host. -/
def smsRequestURL (c : Client) (ts : String) (uuidRes : String × Option GoError)
    (phoneNumbers : List String) (signName templateCode templateParam : String)
    (params : List Param) : URLModel :=
  let sortedQueryStr := (smsValues c ts uuidRes phoneNumbers signName templateCode
    templateParam params).encode
  let sign := c.SignedString "GET" sortedQueryStr
  { scheme := "http", host := "dysmsapi.aliyuncs.com", path := "/",
    rawQuery := "Signature=" ++ sign ++ "&" ++ sortedQueryStr }

/-- The request URL `MakeSingleCallByTTS` builds (lines 218-235). -/
def ttsRequestURL (c : Client) (ts : String) (uuidRes : String × Option GoError)
    (calledShowNumber calledNumber ttsCode ttsParam : String)
    (params : List Param) : URLModel :=
  let sortedQueryStr := (ttsValues c ts uuidRes calledShowNumber calledNumber ttsCode
    ttsParam params).encode
  let sign := c.SignedString "GET" sortedQueryStr
  { scheme := "http", host := "dyvmsapi.aliyuncs.com", path := "/",
    rawQuery := "Signature=" ++ sign ++ "&" ++ sortedQueryStr }

/-! ## Properties of the byte-wise order -/

theorem bytesLe_cons_iff {x y : Nat} {xs ys : List Nat} :
    bytesLe (x :: xs) (y :: ys) = true ↔ x < y ∨ (x = y ∧ bytesLe xs ys = true) := by
  simp only [bytesLe]
  split_ifs with h1 h2
  · simp; omega
  · simp; omega
  · constructor
    · intro h; right; exact ⟨by omega, h⟩
    · rintro (h | ⟨_, h⟩); · omega
      · exact h

theorem bytesLe_refl : ∀ (a : List Nat), bytesLe a a = true
  | [] => rfl
  | x :: xs => by
    rw [bytesLe_cons_iff]; exact Or.inr ⟨rfl, bytesLe_refl xs⟩

theorem bytesLe_total : ∀ (a b : List Nat), bytesLe a b = true ∨ bytesLe b a = true
  | [], _ => Or.inl rfl
  | _ :: _, [] => Or.inr rfl
  | x :: xs, y :: ys => by
    rw [bytesLe_cons_iff, bytesLe_cons_iff]
    rcases Nat.lt_trichotomy x y with h | h | h
    · exact Or.inl (Or.inl h)
    · rcases bytesLe_total xs ys with h' | h'
      · exact Or.inl (Or.inr ⟨h, h'⟩)
      · exact Or.inr (Or.inr ⟨h.symm, h'⟩)
    · exact Or.inr (Or.inl h)

theorem bytesLe_trans :
    ∀ (a b c : List Nat), bytesLe a b = true → bytesLe b c = true → bytesLe a c = true
  | [], _, _, _, _ => rfl
  | _ :: _, [], _, h, _ => by simp [bytesLe] at h
  | _ :: _, _ :: _, [], _, h => by simp [bytesLe] at h
  | x :: xs, y :: ys, z :: zs, h1, h2 => by
    rw [bytesLe_cons_iff] at h1 h2 ⊢
    rcases h1 with h1 | ⟨h1, h1'⟩ <;> rcases h2 with h2 | ⟨h2, h2'⟩
    · exact Or.inl (by omega)
    · exact Or.inl (by omega)
    · exact Or.inl (by omega)
    · exact Or.inr ⟨by omega, bytesLe_trans xs ys zs h1' h2'⟩

theorem bytesLe_antisymm :
    ∀ (a b : List Nat), bytesLe a b = true → bytesLe b a = true → a = b
  | [], [], _, _ => rfl
  | [], _ :: _, _, h => by simp [bytesLe] at h
  | _ :: _, [], h, _ => by simp [bytesLe] at h
  | x :: xs, y :: ys, h1, h2 => by
    rw [bytesLe_cons_iff] at h1 h2
    rcases h1 with h1 | ⟨h1, h1'⟩ <;> rcases h2 with h2 | ⟨h2, h2'⟩ <;> try omega
    rw [h1, bytesLe_antisymm xs ys h1' h2']

instance : IsTotal (String × String) keyLe :=
  ⟨fun p q => bytesLe_total (utf8Bytes p.1) (utf8Bytes q.1)⟩

instance : IsTrans (String × String) keyLe :=
  ⟨fun _ _ _ h1 h2 => bytesLe_trans _ _ _ h1 h2⟩

/-! ## Injectivity of the UTF-8 embedding -/

theorem charToNat_lt (c : Char) : c.toNat < 1114112 := by
  rcases c.valid with h | ⟨_, h⟩
  · exact Nat.lt_trans h (by decide)
  · exact h

theorem charToNat_inj {c d : Char} (h : c.toNat = d.toNat) : c = d := by
  have h2 := congrArg Char.ofNat h
  simpa [Char.ofNat_toNat] using h2

/-- UTF-8 is a prefix-free code: equal concatenations decompose uniquely. -/
theorem utf8EncodeChar_append_inj {c d : Char} {r₁ r₂ : List Nat}
    (h : utf8EncodeChar c ++ r₁ = utf8EncodeChar d ++ r₂) : c = d ∧ r₁ = r₂ := by
  have hc := charToNat_lt c
  have hd := charToNat_lt d
  unfold utf8EncodeChar at h
  split_ifs at h <;>
    simp only [List.cons_append, List.nil_append, List.cons.injEq] at h <;>
    obtain ⟨h1, h⟩ := h <;>
    first
      | exact ⟨charToNat_inj (by omega), h⟩
      | (obtain ⟨h2, h⟩ := h
         first
           | exact ⟨charToNat_inj (by omega), h⟩
           | (obtain ⟨h3, h⟩ := h
              first
                | exact ⟨charToNat_inj (by omega), h⟩
                | (obtain ⟨h4, h⟩ := h
                   exact ⟨charToNat_inj (by omega), h⟩)))
      | (exfalso; omega)

theorem utf8ListInj : ∀ {l₁ l₂ : List Char},
    l₁.flatMap utf8EncodeChar = l₂.flatMap utf8EncodeChar → l₁ = l₂
  | [], [], _ => rfl
  | [], d :: l₂, h => by
    exfalso
    rw [List.flatMap_nil, List.flatMap_cons] at h
    have hne : utf8EncodeChar d ≠ [] := by
      unfold utf8EncodeChar; split_ifs <;> simp
    cases he : utf8EncodeChar d with
    | nil => exact hne he
    | cons b t => rw [he] at h; simp at h
  | c :: l₁, [], h => by
    exfalso
    rw [List.flatMap_nil, List.flatMap_cons] at h
    have hne : utf8EncodeChar c ≠ [] := by
      unfold utf8EncodeChar; split_ifs <;> simp
    cases he : utf8EncodeChar c with
    | nil => exact hne he
    | cons b t => rw [he] at h; simp at h
  | c :: l₁, d :: l₂, h => by
    rw [List.flatMap_cons, List.flatMap_cons] at h
    obtain ⟨hcd, hrest⟩ := utf8EncodeChar_append_inj h
    rw [hcd, utf8ListInj hrest]

theorem utf8Bytes_inj {s t : String} (h : utf8Bytes s = utf8Bytes t) : s = t :=
  String.ext (utf8ListInj h)

/-! ## C4: insertion-order invariance of the canonical query string -/

/-- Two key-sorted association lists with no duplicate keys that are
permutations of each other are equal. -/
theorem sorted_nodupKeys_perm_eq :
    ∀ (l₁ l₂ : Values), l₁.Pairwise keyLe → l₂.Pairwise keyLe →
      (l₁.map Prod.fst).Nodup → l₁.Perm l₂ → l₁ = l₂
  | [], l₂, _, _, _, hp => hp.nil_eq
  | a :: l₁, [], _, _, _, hp => by
    exact absurd hp (by simp)
  | a :: l₁, b :: l₂, hs₁, hs₂, hnd, hp => by
    by_cases hab : a = b
    · subst hab
      have htail := hp.cons_inv
      rw [sorted_nodupKeys_perm_eq l₁ l₂ (List.pairwise_cons.mp hs₁).2
        (List.pairwise_cons.mp hs₂).2 (List.nodup_cons.mp (by simpa using hnd)).2 htail]
    · exfalso
      have ha : a ∈ l₂ := by
        have : a ∈ b :: l₂ := hp.mem_iff.mp (by simp)
        rcases List.mem_cons.mp this with h | h
        · exact absurd h hab
        · exact h
      have hb : b ∈ l₁ := by
        have : b ∈ a :: l₁ := hp.mem_iff.mpr (by simp)
        rcases List.mem_cons.mp this with h | h
        · exact absurd h.symm hab
        · exact h
      have h1 : keyLe a b := (List.pairwise_cons.mp hs₁).1 b hb
      have h2 : keyLe b a := (List.pairwise_cons.mp hs₂).1 a ha
      have hk : a.1 = b.1 :=
        utf8Bytes_inj (bytesLe_antisymm _ _ h1 h2)
      have hnotin : a.1 ∉ l₁.map Prod.fst := (List.nodup_cons.mp (by simpa using hnd)).1
      exact hnotin (hk ▸ List.mem_map_of_mem Prod.fst hb)

/-- C4 core: the canonical query string depends only on the entries, not
on the order in which they were inserted. -/
theorem encode_insertion_order_invariant (v₁ v₂ : Values)
    (hnd : (v₁.map Prod.fst).Nodup) (hp : v₁.Perm v₂) :
    v₁.encode = v₂.encode := by
  unfold Values.encode
  have hs : sortedPairs v₁ = sortedPairs v₂ := by
    apply sorted_nodupKeys_perm_eq
    · exact List.sorted_insertionSort keyLe v₁
    · exact List.sorted_insertionSort keyLe v₂
    · exact ((List.perm_insertionSort keyLe v₁).map Prod.fst).nodup_iff.mpr hnd
    · exact ((List.perm_insertionSort keyLe v₁).trans hp).trans
        (List.perm_insertionSort keyLe v₂).symm
  rw [hs]

/-- Witness for C4: two concrete parameter sets with the same entries in
different insertion orders encode to the same canonical string. -/
theorem encode_insertion_order_invariant_witness :
    ((([("b", "2"), ("a", "1")] : Values).map Prod.fst).Nodup ∧
      ([("b", "2"), ("a", "1")] : Values).Perm [("a", "1"), ("b", "2")]) ∧
    Values.encode [("b", "2"), ("a", "1")] = Values.encode [("a", "1"), ("b", "2")] :=
  ⟨⟨by decide, by decide⟩,
    encode_insertion_order_invariant [("b", "2"), ("a", "1")] [("a", "1"), ("b", "2")]
      (by decide) (by decide)⟩

/-! ## Structure lemmas for the special encoding -/

theorem unreserved_lt {b : Nat} (h : isGoUnreserved b = true) : b < 128 := by
  simp only [isGoUnreserved, Bool.or_eq_true, Bool.and_eq_true, decide_eq_true_eq,
    beq_iff_eq] at h
  omega

theorem toNat_ofNat_lt {n : Nat} (h : n < 55296) : (Char.ofNat n).toNat = n := by
  have hv : n.isValidChar := Or.inl h
  rw [Char.ofNat, dif_pos hv]
  simp [Char.ofNatAux, Char.toNat, UInt32.toNat]

theorem hexVal_hexDigit {n : Nat} (h : n < 16) : hexVal (hexDigit n) = n := by
  interval_cases n <;> rfl

theorem isHexUpper_hexDigit {n : Nat} (h : n < 16) : isHexUpper (hexDigit n) = true := by
  interval_cases n <;> rfl

theorem hexDigit_ne_plus (n : Nat) : hexDigit n ≠ '+' := by
  unfold hexDigit
  split <;> decide

theorem mem_utf8EncodeChar_lt {b : Nat} {c : Char} (h : b ∈ utf8EncodeChar c) : b < 256 := by
  have hc := charToNat_lt c
  unfold utf8EncodeChar at h
  split_ifs at h <;> simp only [List.mem_cons, List.mem_singleton, List.not_mem_nil] at h <;>
    rcases h with h | h | h | h | h <;> first | omega | (exfalso; exact h)

theorem mem_utf8Bytes_lt {b : Nat} {s : String} (h : b ∈ utf8Bytes s) : b < 256 := by
  unfold utf8Bytes at h
  rcases List.mem_flatMap.mp h with ⟨c, _, hb⟩
  exact mem_utf8EncodeChar_lt hb

/-- A single-character pattern makes `replaceAll` a per-character map. -/
theorem replaceAll_single (a : Char) (rep : List Char) :
    ∀ l : List Char, replaceAll [a] rep l = l.flatMap (fun x => if x = a then rep else [x])
  | [] => rfl
  | c :: rest => by
    by_cases hca : c = a
    · subst hca
      have hpre : [c].isPrefixOf (c :: rest) = true :=
        List.isPrefixOf_iff_prefix.mpr ⟨rest, rfl⟩
      show (if [c].isPrefixOf (c :: rest) = true then
          rep ++ replaceScan [c] rep ([c].length - 1) rest
        else c :: replaceScan [c] rep 0 rest) = _
      rw [if_pos hpre, List.flatMap_cons, if_pos rfl]
      show rep ++ replaceAll [c] rep rest = _
      rw [replaceAll_single c rep rest]
    · have hpre : [a].isPrefixOf (c :: rest) = false := by
        rw [Bool.eq_false_iff]
        intro hp
        have h2 := List.isPrefixOf_iff_prefix.mp hp
        rw [List.cons_prefix_cons] at h2
        exact hca h2.1.symm
      show (if [a].isPrefixOf (c :: rest) = true then
          rep ++ replaceScan [a] rep ([a].length - 1) rest
        else c :: replaceScan [a] rep 0 rest) = _
      rw [if_neg (by simp [hpre]), List.flatMap_cons, if_neg hca]
      show c :: replaceAll [a] rep rest = _
      rw [replaceAll_single a rep rest]
      rfl

/-- If the pattern occurs nowhere in the text, `replaceAll` is the
identity. -/
theorem replaceAll_id_of_not_infix {old : List Char} (rep : List Char) :
    ∀ l : List Char, ¬ (old <:+: l) → replaceAll old rep l = l
  | [], _ => rfl
  | c :: rest, h => by
    show replaceScan old rep 0 (c :: rest) = _
    have hpre : old.isPrefixOf (c :: rest) = false := by
      rw [Bool.eq_false_iff]
      intro hp
      exact h (( List.isPrefixOf_iff_prefix.mp hp).isInfix)
    rw [replaceScan, if_neg (by simp [hpre])]
    rw [show replaceScan old rep 0 rest = replaceAll old rep rest from rfl,
      replaceAll_id_of_not_infix rep rest (fun hi => h (List.infix_cons_iff.mpr (Or.inr hi)))]

/-- If a character occurs nowhere in the text, the per-character map of a
single-character replacement is the identity. -/
theorem flatMap_ite_id {a : Char} {rep : List Char} :
    ∀ {l : List Char}, (∀ x ∈ l, x ≠ a) → (l.flatMap fun x => if x = a then rep else [x]) = l
  | [], _ => rfl
  | c :: rest, h => by
    rw [List.flatMap_cons, if_neg (h c (by simp)),
      flatMap_ite_id (fun x hx => h x (by simp [hx]))]
    rfl

theorem escWF_mem {l : List Char} (h : EscWF l) :
    ∀ c ∈ l, isGoUnreserved c.toNat = true ∨ c = '%' ∨ isHexUpper c = true := by
  induction h with
  | nil => intro c hc; exact absurd hc (List.not_mem_nil c)
  | plain d hd l _ ih =>
    intro c hc
    rcases List.mem_cons.mp hc with rfl | hc
    · exact Or.inl hd
    · exact ih c hc
  | esc x y hx hy hb l _ ih =>
    intro c hc
    rcases List.mem_cons.mp hc with rfl | hc
    · exact Or.inr (Or.inl rfl)
    · rcases List.mem_cons.mp hc with rfl | hc
      · exact Or.inr (Or.inr hx)
      · rcases List.mem_cons.mp hc with rfl | hc
        · exact Or.inr (Or.inr hy)
        · exact ih c hc

theorem escWF_no_plus {l : List Char} (h : EscWF l) : '+' ∉ l := by
  intro hc
  rcases escWF_mem h '+' hc with h | h | h
  · exact absurd h (by decide)
  · exact absurd h (by decide)
  · exact absurd h (by decide)

theorem escWF_no_star {l : List Char} (h : EscWF l) : '*' ∉ l := by
  intro hc
  rcases escWF_mem h '*' hc with h | h | h
  · exact absurd h (by decide)
  · exact absurd h (by decide)
  · exact absurd h (by decide)

/-- Well-formed conformant output never contains the text `%7E`: a `%`
can only start an escape, and `7E` would be the escape of the unreserved
byte `~`. -/
theorem escWF_no_tildeEscape {l : List Char} (h : EscWF l) : ¬ (['%', '7', 'E'] <:+: l) := by
  induction h with
  | nil => simp
  | plain c hc l _ ih =>
    intro hi
    rcases List.infix_cons_iff.mp hi with hp | hi
    · rw [List.cons_prefix_cons] at hp
      rw [← hp.1] at hc
      exact absurd hc (by decide)
    · exact ih hi
  | esc x y hx hy hb l _ ih =>
    intro hi
    rcases List.infix_cons_iff.mp hi with hp | hi
    · rw [List.cons_prefix_cons] at hp
      have hp2 := hp.2
      rw [List.cons_prefix_cons] at hp2
      have hp3 := hp2.2
      rw [List.cons_prefix_cons] at hp3
      rw [← hp2.1, ← hp3.1] at hb
      exact absurd hb (by decide)
    · rcases List.infix_cons_iff.mp hi with hp | hi
      · rw [List.cons_prefix_cons] at hp
        rw [← hp.1] at hx
        exact absurd hx (by decide)
      · rcases List.infix_cons_iff.mp hi with hp | hi
        · rw [List.cons_prefix_cons] at hp
          rw [← hp.1] at hy
          exact absurd hy (by decide)
        · exact ih hi

theorem escWF_peByte {b : Nat} (hb : b < 256) {l : List Char} (h : EscWF l) :
    EscWF (peByte b ++ l) := by
  unfold peByte
  split_ifs with hu
  · exact EscWF.plain _
      (by rw [toNat_ofNat_lt (by have := unreserved_lt hu; omega)]; exact hu) _ h
  · refine EscWF.esc _ _ (isHexUpper_hexDigit (by omega)) (isHexUpper_hexDigit (by omega)) ?_ _ h
    rw [hexVal_hexDigit (by omega), hexVal_hexDigit (by omega),
      show 16 * (b / 16) + b % 16 = b by omega]
    exact Bool.eq_false_iff.mpr hu

theorem escWF_flatMap : ∀ {bs : List Nat}, (∀ b ∈ bs, b < 256) → EscWF (bs.flatMap peByte)
  | [], _ => EscWF.nil
  | b :: bs, h => by
    rw [List.flatMap_cons]
    exact escWF_peByte (h b (by simp)) (escWF_flatMap (fun x hx => h x (by simp [hx])))

theorem qeByte_flatMap_plus (b : Nat) :
    ((qeByte b).flatMap fun x => if x = '+' then ['%', '2', '0'] else [x]) = peByte b := by
  unfold qeByte peByte
  split_ifs with hu h32
  · rw [List.flatMap_singleton, if_neg ?_]
    intro hc
    have hb := unreserved_lt hu
    have hb43 : b = 43 := by
      have h2 := congrArg Char.toNat hc
      rw [toNat_ofNat_lt (by omega)] at h2
      simpa using h2
    rw [hb43] at hu
    exact absurd hu (by decide)
  · have hb32 : b = 32 := by simpa using h32
    subst hb32
    decide
  · simp only [List.flatMap_cons, List.flatMap_nil, List.append_nil]
    rw [if_neg (by decide), if_neg (hexDigit_ne_plus _), if_neg (hexDigit_ne_plus _)]
    rfl

/-- Master characterization: the output of `SpecialURLEncode` is exactly
the strict per-byte percent-encoding `peByte` of the UTF-8 input bytes. -/
theorem specialURLEncode_data (s : String) :
    (SpecialURLEncode s).data = (utf8Bytes s).flatMap peByte := by
  have h1 : (stringReplaceAll (queryEscape s) "+" "%20").data = (utf8Bytes s).flatMap peByte := by
    show replaceAll ['+'] ['%', '2', '0'] (queryEscapeChars (utf8Bytes s)) = _
    rw [replaceAll_single]
    show ((utf8Bytes s).flatMap qeByte).flatMap _ = _
    rw [List.flatMap_assoc]
    simp only [qeByte_flatMap_plus]
  have hwf : EscWF ((utf8Bytes s).flatMap peByte) :=
    escWF_flatMap (fun b hb => mem_utf8Bytes_lt hb)
  have h2 : (stringReplaceAll (stringReplaceAll (queryEscape s) "+" "%20") "*" "%2A").data =
      (utf8Bytes s).flatMap peByte := by
    show replaceAll ['*'] ['%', '2', 'A']
      (stringReplaceAll (queryEscape s) "+" "%20").data = _
    rw [h1, replaceAll_single]
    exact flatMap_ite_id (fun x hx hc => escWF_no_star hwf (hc ▸ hx))
  show replaceAll ['%', '7', 'E'] ['~']
    (stringReplaceAll (stringReplaceAll (queryEscape s) "+" "%20") "*" "%2A").data = _
  rw [h2, replaceAll_id_of_not_infix _ _ (escWF_no_tildeEscape hwf)]

/-! ## C1, C2, C3 and C10: the encoding and signing algorithm -/

theorem specialEncode_eq_spec (s : String) :
    SpecialURLEncode s = specialEncodeSpec s := rfl

/-- C2: for every input string, `SpecialURLEncode` equals the standard
form-encoding followed by the three textual substitutions of the spec,
applied in order. -/
theorem specialURLEncode_matches_spec (s : String) :
    SpecialURLEncode s = specialEncodeSpec s := specialEncode_eq_spec s

/-- C1: for every method, sorted query string and secret,
`Client.SignedString` equals the reference signature definition of the
spec. -/
theorem signedString_matches_spec (c : Client) (httpMethod sortedQueryStr : String) :
    c.SignedString httpMethod sortedQueryStr =
      signedStringSpec httpMethod sortedQueryStr c.accessKeySecret := by
  have h : queryEscape "/" = "%2F" := by decide
  simp only [Client.SignedString, signedStringSpec, specialEncode_eq_spec, h]

/-- C3 counterexample: `SpecialURLEncode` double-encodes its own output.
At the input `" "` one application gives `"%20"` while two applications
give `"%2520"`. -/
theorem specialURLEncode_not_idempotent :
    SpecialURLEncode (SpecialURLEncode " ") ≠ SpecialURLEncode " " ∧
      SpecialURLEncode " " = "%20" ∧ SpecialURLEncode (SpecialURLEncode " ") = "%2520" := by
  decide

/-- C10: the output of `SpecialURLEncode` never contains a literal `+`
nor the text `%7E`; it is exactly the per-byte map sending space to
`%20`, `*` to `%2A`, `~` to a literal `~`, unreserved bytes to
themselves and all other bytes to uppercase `%XX` escapes. -/
theorem specialURLEncode_output_normalized (s : String) :
    (SpecialURLEncode s).data = (utf8Bytes s).flatMap peByte ∧
    '+' ∉ (SpecialURLEncode s).data ∧
    ¬ (['%', '7', 'E'] <:+: (SpecialURLEncode s).data) ∧
    peByte 32 = ['%', '2', '0'] ∧ peByte 42 = ['%', '2', 'A'] ∧ peByte 126 = ['~'] := by
  have hd := specialURLEncode_data s
  have hwf : EscWF ((utf8Bytes s).flatMap peByte) :=
    escWF_flatMap (fun b hb => mem_utf8Bytes_lt hb)
  refine ⟨hd, ?_, ?_, by decide, by decide, by decide⟩
  · rw [hd]; exact escWF_no_plus hwf
  · rw [hd]; exact escWF_no_tildeEscape hwf

/-- C3 amended: the three substitutions are idempotent-safe on conformant
output: applied to a result of `SpecialURLEncode` they change nothing
(the full encoding, by contrast, re-escapes `%` and double-encodes). -/
theorem substitutions_identity_on_encoded (s : String) :
    specialSubstitutions (SpecialURLEncode s) = SpecialURLEncode s := by
  have hd := specialURLEncode_data s
  have hwf : EscWF ((utf8Bytes s).flatMap peByte) :=
    escWF_flatMap (fun b hb => mem_utf8Bytes_lt hb)
  apply String.ext
  have h1 : replaceAll ['+'] ['%', '2', '0'] (SpecialURLEncode s).data =
      (SpecialURLEncode s).data := by
    rw [replaceAll_single, hd]
    exact flatMap_ite_id (fun x hx hc => escWF_no_plus hwf (hc ▸ hx))
  have h2 : replaceAll ['*'] ['%', '2', 'A'] (SpecialURLEncode s).data =
      (SpecialURLEncode s).data := by
    rw [replaceAll_single, hd]
    exact flatMap_ite_id (fun x hx hc => escWF_no_star hwf (hc ▸ hx))
  have h3 : replaceAll ['%', '7', 'E'] ['~'] (SpecialURLEncode s).data =
      (SpecialURLEncode s).data := by
    rw [hd]
    exact replaceAll_id_of_not_infix _ _ (escWF_no_tildeEscape hwf)
  show replaceAll ['%', '7', 'E'] ['~'] (replaceAll ['*'] ['%', '2', 'A']
    (replaceAll ['+'] ['%', '2', '0'] (SpecialURLEncode s).data)) = _
  rw [h1, h2, h3]

/-! ## C5 and C9: business outcome and decode errors -/

theorem char_eq_iff_toNat {c d : Char} : c = d ↔ c.toNat = d.toNat :=
  ⟨fun h => congrArg Char.toNat h, charToNat_inj⟩

theorem asciiUpper_eq_iff (c U L : Char) (hU : 65 ≤ U.toNat ∧ U.toNat ≤ 90)
    (hL : L.toNat = U.toNat + 32) : asciiUpper c = U ↔ asciiLower c = L := by
  unfold asciiUpper asciiLower
  split_ifs with h1 h2
  · omega
  · rw [char_eq_iff_toNat, char_eq_iff_toNat, toNat_ofNat_lt (by omega)]
    omega
  · rw [char_eq_iff_toNat, char_eq_iff_toNat, toNat_ofNat_lt (by omega)]
    omega
  · rw [char_eq_iff_toNat, char_eq_iff_toNat]
    omega

theorem upper_eq_OK_iff (cs : List Char) :
    cs.map asciiUpper = ['O', 'K'] ↔ cs.map asciiLower = ['o', 'k'] := by
  rcases cs with _ | ⟨c1, _ | ⟨c2, _ | ⟨c3, rest⟩⟩⟩
  · simp
  · simp
  · simp only [List.map_cons, List.map_nil, List.cons.injEq, and_true]
    rw [asciiUpper_eq_iff c1 'O' 'o' (by decide) (by decide),
      asciiUpper_eq_iff c2 'K' 'k' (by decide) (by decide)]
  · simp

theorem toUpper_OK_iff (code : String) :
    strToUpper code = "OK" ↔ eqIgnoreCase code "OK" = true := by
  have h1 : strToUpper code = "OK" ↔ code.data.map asciiUpper = ['O', 'K'] :=
    ⟨fun h => congrArg String.data h, fun h => String.ext h⟩
  have h2 : eqIgnoreCase code "OK" = true ↔ code.data.map asciiLower = ['o', 'k'] := by
    unfold eqIgnoreCase
    rw [beq_iff_eq]
    rw [show "OK".data.map asciiLower = ['o', 'k'] from by decide]
  rw [h1, h2, upper_eq_OK_iff]

/-- C5: in both operations the success flag is exactly the case
insensitive comparison of the status code with `OK`; the decoded response
is always passed back populated and the error is always `none` — a
business failure is never represented as an error. -/
theorem business_outcome_case_insensitive (r : SMSResponse) (r2 : SingleCallByTTSResponse) :
    smsOutcome r = (eqIgnoreCase r.Code "OK", some r, none) ∧
    ttsOutcome r2 = (eqIgnoreCase r2.Code "OK", some r2, none) := by
  constructor
  · unfold smsOutcome
    by_cases h : strToUpper r.Code = "OK"
    · rw [if_neg (by simpa using h), (toUpper_OK_iff r.Code).mp h]
    · rw [if_pos h, Bool.eq_false_iff.mpr (fun hc => h ((toUpper_OK_iff r.Code).mpr hc))]
  · unfold ttsOutcome
    by_cases h : strToUpper r2.Code = "OK"
    · rw [if_neg (by simpa using h), (toUpper_OK_iff r2.Code).mp h]
    · rw [if_pos h, Bool.eq_false_iff.mpr (fun hc => h ((toUpper_OK_iff r2.Code).mpr hc))]

/-- C9: a decode failure terminates normally with `success=false`, no
response, and the decode error passed through verbatim, in both
operations (the handlers are total functions, so no abnormal
termination is possible). -/
theorem decode_error_propagated (e : GoError) :
    smsHandleDecode (Except.error e) = (false, none, some e) ∧
    ttsHandleDecode (Except.error e) = (false, none, some e) :=
  ⟨rfl, rfl⟩

/-! ## C6, C7 and C8: parameter precedence, request assembly, nonce errors -/

theorem lookup_set (w : Values) (k val : String) :
    List.lookup k (w.set k val) = some val := by
  unfold Values.set
  induction w with
  | nil => simp [List.lookup]
  | cons p w ih =>
    by_cases hp : p.1 = k
    · simpa [List.filter_cons, hp] using ih
    · rw [List.filter_cons, if_pos (by simpa using hp)]
      rw [List.cons_append, List.lookup]
      have hk : (k == p.1) = false := by
        simp only [beq_eq_false_iff_ne, ne_eq]
        exact fun he => hp he.symm
      rw [hk]
      exact ih

/-- Every member of the list of rendered pairs occurs inside the
`&`-joined query string. -/
theorem mem_joinAmp {s : String} :
    ∀ {parts : List String}, s ∈ parts → s.data <:+: (joinAmp parts).data
  | [], h => absurd h (List.not_mem_nil s)
  | [p], h => by
    rw [List.mem_singleton] at h
    subst h
    exact List.infix_rfl
  | p :: q :: rest, h => by
    rcases List.mem_cons.mp h with rfl | h
    · show s.data <:+: ((s ++ "&") ++ joinAmp (q :: rest)).data
      rw [String.data_append, String.data_append, List.append_assoc]
      exact (List.prefix_append s.data _).isInfix
    · have hrec := mem_joinAmp h
      show s.data <:+: ((p ++ "&") ++ joinAmp (q :: rest)).data
      rw [String.data_append]
      exact hrec.trans (List.suffix_append _ _).isInfix

/-- C8: when uuid generation fails (empty string plus an error), the
assembled parameter set silently carries the empty `SignatureNonce` and
`SetDefaultCommonParams` returns no error — the failure is not
propagated. -/
theorem nonce_error_discarded (c : Client) (ts : String) (e : GoError) (v : Values) :
    List.lookup "SignatureNonce" (c.SetDefaultCommonParams ts ("", some e) v) = some "" :=
  lookup_set _ "SignatureNonce" ""

theorem encode_eq_joinAmp (v : Values) :
    Values.encode v =
      joinAmp ((sortedPairs v).map (fun p => queryEscape p.1 ++ "=" ++ queryEscape p.2)) := rfl

/-- C6 amended: the caller override is applied after all defaults and
business parameters, so for any key it replaces the stored value, and
the standard query-escaped form `QueryEscape(k)=QueryEscape(val)` of the
overridden pair appears in the sorted query string that is signed (the
raw value itself appears verbatim only when escaping leaves it
unchanged). -/
theorem override_precedence (c : Client) (ts : String) (ur : String × Option GoError)
    (phones : List String) (sn tc tp csn cn tcode tparam k val : String) :
    List.lookup k (smsValues c ts ur phones sn tc tp [⟨fun w => w.set k val⟩]) = some val ∧
    (queryEscape k ++ "=" ++ queryEscape val).data <:+:
      (smsValues c ts ur phones sn tc tp [⟨fun w => w.set k val⟩]).encode.data ∧
    List.lookup k (ttsValues c ts ur csn cn tcode tparam [⟨fun w => w.set k val⟩]) = some val ∧
    (queryEscape k ++ "=" ++ queryEscape val).data <:+:
      (ttsValues c ts ur csn cn tcode tparam [⟨fun w => w.set k val⟩]).encode.data := by
  have hsm : smsValues c ts ur phones sn tc tp [⟨fun w => w.set k val⟩] =
      (smsValues c ts ur phones sn tc tp []).set k val := rfl
  have htt : ttsValues c ts ur csn cn tcode tparam [⟨fun w => w.set k val⟩] =
      (ttsValues c ts ur csn cn tcode tparam []).set k val := rfl
  rw [hsm, htt]
  refine ⟨lookup_set _ k val, ?_, lookup_set _ k val, ?_⟩
  · have hmem : (k, val) ∈ (smsValues c ts ur phones sn tc tp []).set k val := by
      unfold Values.set
      exact List.mem_append_right _ (List.mem_singleton.mpr rfl)
    have hmem2 : (k, val) ∈ sortedPairs ((smsValues c ts ur phones sn tc tp []).set k val) :=
      (List.perm_insertionSort keyLe _).mem_iff.mpr hmem
    have hmem3 := List.mem_map_of_mem
      (fun p : String × String => queryEscape p.1 ++ "=" ++ queryEscape p.2) hmem2
    rw [encode_eq_joinAmp]
    exact mem_joinAmp hmem3
  · have hmem : (k, val) ∈ (ttsValues c ts ur csn cn tcode tparam []).set k val := by
      unfold Values.set
      exact List.mem_append_right _ (List.mem_singleton.mpr rfl)
    have hmem2 : (k, val) ∈ sortedPairs ((ttsValues c ts ur csn cn tcode tparam []).set k val) :=
      (List.perm_insertionSort keyLe _).mem_iff.mpr hmem
    have hmem3 := List.mem_map_of_mem
      (fun p : String × String => queryEscape p.1 ++ "=" ++ queryEscape p.2) hmem2
    rw [encode_eq_joinAmp]
    exact mem_joinAmp hmem3

set_option maxRecDepth 10000 in
/-- C6 counterexample: an override value that needs escaping does not
appear verbatim in the sorted query string.  With the override
`Timestamp = 2018-01-02T03:04:05Z` the value is stored verbatim in the
parameter set, but the signed sorted query string contains only its
escaped form `2018-01-02T03%3A04%3A05Z`. -/
theorem override_value_not_verbatim :
    List.lookup "Timestamp"
      (smsValues ⟨"testId", "testSecret"⟩ "2017-01-01T00:00:00Z" ("abc", none)
        ["13800138000"] "sig" "SMS_1" "p"
        [⟨fun w => w.set "Timestamp" "2018-01-02T03:04:05Z"⟩]) =
      some "2018-01-02T03:04:05Z" ∧
    ¬ ("2018-01-02T03:04:05Z".data <:+:
      (Values.encode (smsValues ⟨"testId", "testSecret"⟩ "2017-01-01T00:00:00Z" ("abc", none)
        ["13800138000"] "sig" "SMS_1" "p"
        [⟨fun w => w.set "Timestamp" "2018-01-02T03:04:05Z"⟩])).data) := by
  constructor
  · decide
  · decide

theorem sigRawQuery_ne_empty (x y : String) : ("Signature=" ++ x ++ "&" ++ y) ≠ "" := by
  intro he
  have h2 := congrArg String.data he
  simp only [String.data_append] at h2
  have h3 : "Signature=".data ++ x.data ++ "&".data ++ y.data = ([] : List Char) := h2
  rcases List.append_eq_nil.mp (List.append_eq_nil.mp (List.append_eq_nil.mp h3).1).1
    with ⟨h4, _⟩
  exact absurd h4 (by decide)

/-- C7: the final raw query is the literal `Signature=` followed by the
computed signature, a `&`, and the sorted query string; the request URL
is `http://<host>/?<finalQuery>` with scheme `http`, path `/`, host
`dysmsapi.aliyuncs.com` for SendSMS and `dyvmsapi.aliyuncs.com` for
MakeSingleCallByTTS. -/
theorem request_assembly (c : Client) (ts : String) (ur : String × Option GoError)
    (phones : List String) (sn tc tp csn cn tcode tparam : String) (params : List Param) :
    smsRequestURL c ts ur phones sn tc tp params =
      { scheme := "http", host := "dysmsapi.aliyuncs.com", path := "/",
        rawQuery := "Signature=" ++
          c.SignedString "GET" (smsValues c ts ur phones sn tc tp params).encode ++ "&" ++
          (smsValues c ts ur phones sn tc tp params).encode } ∧
    (smsRequestURL c ts ur phones sn tc tp params).render =
      "http://dysmsapi.aliyuncs.com/?" ++
        (smsRequestURL c ts ur phones sn tc tp params).rawQuery ∧
    ttsRequestURL c ts ur csn cn tcode tparam params =
      { scheme := "http", host := "dyvmsapi.aliyuncs.com", path := "/",
        rawQuery := "Signature=" ++
          c.SignedString "GET" (ttsValues c ts ur csn cn tcode tparam params).encode ++ "&" ++
          (ttsValues c ts ur csn cn tcode tparam params).encode } ∧
    (ttsRequestURL c ts ur csn cn tcode tparam params).render =
      "http://dyvmsapi.aliyuncs.com/?" ++
        (ttsRequestURL c ts ur csn cn tcode tparam params).rawQuery := by
  refine ⟨rfl, ?_, rfl, ?_⟩
  · show URLModel.render
      { scheme := "http", host := "dysmsapi.aliyuncs.com", path := "/",
        rawQuery := "Signature=" ++
          c.SignedString "GET" (smsValues c ts ur phones sn tc tp params).encode ++ "&" ++
          (smsValues c ts ur phones sn tc tp params).encode } = _
    rw [URLModel.render]
    rw [if_neg (sigRawQuery_ne_empty _ _)]
    rfl
  · show URLModel.render
      { scheme := "http", host := "dyvmsapi.aliyuncs.com", path := "/",
        rawQuery := "Signature=" ++
          c.SignedString "GET" (ttsValues c ts ur csn cn tcode tparam params).encode ++ "&" ++
          (ttsValues c ts ur csn cn tcode tparam params).encode } = _
    rw [URLModel.render]
    rw [if_neg (sigRawQuery_ne_empty _ _)]
    rfl
